import Mathlib

/-!
Verification of the Chroma collection-engine specification.

The repository excerpt contains the engine's property-based test suite
(`chromadb/test/property/test_embeddings.py`), the RBAC authorization test
(`chromadb/test/auth/test_simple_rbac_authz.py`) and the FastAPI server layer
(`chromadb/server/fastapi/__init__.py`).  The Collection Engine itself
(record store, ANN index adapter, batch synchronizer) is not part of the
excerpt, so it is modelled here from the specification, with the behaviors
pinned by the test suite taken as authoritative where the two disagree.
The FastAPI routing and authorization dispatch are embedded directly from
the source file.
-/

namespace Chroma

/-- Metadata scalar values: string, numeric or boolean
(spec section 3, "Record"). -/
inductive MetaValue where
  | str (s : String)
  | num (q : ℚ)
  | boolean (b : Bool)
deriving DecidableEq, Repr

/-- A metadata map, modelled as an association list of string keys
(first occurrence wins on lookup, mirroring a Python dict built
left-to-right). -/
abbrev Metadata := List (String × MetaValue)

/-- First-match lookup in a metadata map. -/
def metaLookup (m : Metadata) (k : String) : Option MetaValue :=
  (m.find? (fun p => p.1 == k)).map (fun p => p.2)

/-- Whether a metadata map holds the given key. -/
def metaHasKey (m : Metadata) (k : String) : Bool :=
  m.any (fun p => p.1 == k)

/-- Insert or overwrite one key in a metadata map, preserving the position
of an existing key (Python `dict.__setitem__`). -/
def insertMeta (m : Metadata) (k : String) (v : MetaValue) : Metadata :=
  if metaHasKey m k then m.map (fun p => if p.1 == k then (k, v) else p)
  else m ++ [(k, v)]

/-- Modelled from the spec: the Record Store's metadata merge
(spec section 4.1, `update`): "merge the supplied keys into the existing
metadata map (existing keys not mentioned are preserved; supplied keys
overwrite)".  It is Python `dict.update`, mirrored by the state-machine
test's `_upsert_embeddings` (`record_set_state.update(...)`). -/
def mergeMeta (old new : Metadata) : Metadata :=
  new.foldl (fun acc p => insertMeta acc p.1 p.2) old

/-- A live record of a collection (spec section 3, "Record"). -/
structure Record where
  id : String
  embedding : List ℚ
  metadata : Option Metadata
  document : Option String
deriving DecidableEq, Repr

/-- Error kinds surfaced by the engine that the claims mention
(spec section 7). -/
inductive ChromaError where
  | invalidArgument (msg : String)
  | duplicateIDError
deriving DecidableEq, Repr

/-- One entry of an `add`/`upsert` batch (parallel arrays zipped). -/
structure AddEntry where
  id : String
  embedding : List ℚ
  metadata : Option Metadata
  document : Option String
deriving DecidableEq, Repr

/-- One entry of an `update` batch; every field but the id is optional. -/
structure UpdateEntry where
  id : String
  embedding : Option (List ℚ)
  metadata : Option Metadata
  document : Option String
deriving DecidableEq, Repr

/-- A `where` metadata predicate, modelled as a conjunction of
key-equals-value leaves; the empty conjunction is the `where={}` of the
tests. -/
abbrev WherePred := List (String × MetaValue)

/-- A `where_document` predicate: a conjunction of `$contains` substring
leaves; empty stands for `where_document={}`. -/
abbrev WhereDocPred := List String

/-- Whether a record satisfies a `where` predicate. -/
def matchWhere (w : WherePred) (r : Record) : Bool :=
  w.all (fun p => metaLookup (r.metadata.getD []) p.1 == some p.2)

/-- Whether a record's document satisfies a `where_document` predicate. -/
def matchWhereDoc (wd : WhereDocPred) (r : Record) : Bool :=
  wd.all (fun s =>
    match r.document with
    | none => false
    | some d => decide (s.data <:+: d.data))

/-- Modelled from the spec: a pending mutation handed by the Record Store
to the Batch Synchronizer (spec sections 4.1 side effects and 4.3): an
insert-or-replace of an id's vector, or a removal. -/
inductive IndexDelta where
  | upsertVec (id : String) (embedding : List ℚ)
  | removeVec (id : String)
deriving DecidableEq, Repr

/-- Modelled from the spec: the Collection Engine state missing from the
excerpt (spec sections 4.1-4.4): the authoritative record list, the
per-collection batching parameters, the pending mutation batch, the flushed
ANN-index contents and the persistence counter. -/
structure Engine where
  records : List Record
  batchSize : ℕ
  syncThreshold : ℕ
  pending : List IndexDelta
  indexVecs : List (String × List ℚ)
  flushedSinceSync : ℕ
deriving DecidableEq, Repr

/-- A fresh engine for a collection configured with the given
`batch_size` and `sync_threshold`. -/
def initEngine (b sync : ℕ) : Engine :=
  ⟨[], b, sync, [], [], 0⟩

/-- Apply a single delta to the index contents (insert-or-replace /
remove, spec section 4.2). -/
def applyDelta (idx : List (String × List ℚ)) : IndexDelta → List (String × List ℚ)
  | .upsertVec i e =>
      if idx.any (fun p => p.1 == i) then
        idx.map (fun p => if p.1 == i then (i, e) else p)
      else idx ++ [(i, e)]
  | .removeVec i => idx.filter (fun p => p.1 != i)

/-- Apply a batch of deltas in order. -/
def applyDeltas (idx : List (String × List ℚ)) (ds : List IndexDelta) :
    List (String × List ℚ) :=
  ds.foldl applyDelta idx

/-- Modelled from the spec: the Batch Synchronizer step (spec section 4.3):
deltas accumulate in the pending batch; once the pending count reaches
`batch_size` the whole batch is applied to the index and the flush counter
feeds the persistence counter, which resets when it reaches
`sync_threshold`. -/
def pushDeltas (s : Engine) (ds : List IndexDelta) : Engine :=
  let pend := s.pending ++ ds
  if s.batchSize ≤ pend.length then
    let flushed := s.flushedSinceSync + pend.length
    { s with
      pending := []
      indexVecs := applyDeltas s.indexVecs pend
      flushedSinceSync := if s.syncThreshold ≤ flushed then 0 else flushed }
  else
    { s with pending := pend }

/-- Whether some live record carries the given id. -/
def hasId (recs : List Record) (i : String) : Bool :=
  recs.any (fun r => r.id == i)

/-- The record built from an `add`/`upsert` entry. -/
def newRecord (e : AddEntry) : Record :=
  ⟨e.id, e.embedding, e.metadata, e.document⟩

/-- Modelled from the spec: one `add` entry applied to the engine
(spec section 4.1): an id already present is skipped, not errored; a fresh
id is appended and its vector delta handed to the synchronizer. -/
def addOne (s : Engine) (e : AddEntry) : Engine :=
  if hasId s.records e.id then s
  else
    pushDeltas { s with records := s.records ++ [newRecord e] }
      [.upsertVec e.id e.embedding]

/-- Sequential application of an `add` batch. -/
def addList (s : Engine) : List AddEntry → Engine
  | [] => s
  | e :: rest => addList (addOne s e) rest

/-- Modelled from the spec: the engine's `add` (spec section 4.4): a batch
whose own ids repeat fails with `DuplicateIDError` and writes nothing;
otherwise ids already present are silently dropped and the rest written. -/
def addRecords (s : Engine) (batch : List AddEntry) : Except ChromaError Engine :=
  if (batch.map (fun e => e.id)).Nodup then .ok (addList s batch)
  else .error .duplicateIDError

/-- The in-place field update of an existing record: `embedding` and
`document` overwrite when supplied, `metadata` merges
(spec section 4.1, `update`). -/
def updatedRecord (r : Record) (emb : Option (List ℚ)) (md : Option Metadata)
    (doc : Option String) : Record :=
  { r with
    embedding := emb.getD r.embedding
    metadata :=
      match md with
      | none => r.metadata
      | some m => some (mergeMeta (r.metadata.getD []) m)
    document := doc <|> r.document }

/-- Modelled from the spec: one `update` entry applied to the engine
(spec section 4.1): an id not present is silently ignored; a present id has
its fields updated in place and the resulting vector re-emitted to the
synchronizer. -/
def updateOne (s : Engine) (e : UpdateEntry) : Engine :=
  match s.records.find? (fun r => r.id == e.id) with
  | none => s
  | some old =>
      pushDeltas
        { s with
          records := s.records.map (fun r =>
            if r.id == e.id then updatedRecord r e.embedding e.metadata e.document
            else r) }
        [.upsertVec e.id (e.embedding.getD old.embedding)]

/-- Sequential application of an `update` batch. -/
def updateList (s : Engine) : List UpdateEntry → Engine
  | [] => s
  | e :: rest => updateList (updateOne s e) rest

/-- Modelled from the spec: the engine's `update` (spec section 4.4). -/
def updateRecords (s : Engine) (batch : List UpdateEntry) : Engine :=
  updateList s batch

/-- Modelled from the spec: one `upsert` entry (spec section 4.1): behaves
as `update` for an existing id (metadata merge included), as `insert` for
a new id. -/
def upsertOne (s : Engine) (e : AddEntry) : Engine :=
  if hasId s.records e.id then
    pushDeltas
      { s with
        records := s.records.map (fun r =>
          if r.id == e.id then updatedRecord r (some e.embedding) e.metadata e.document
          else r) }
      [.upsertVec e.id e.embedding]
  else
    pushDeltas { s with records := s.records ++ [newRecord e] }
      [.upsertVec e.id e.embedding]

/-- Sequential application of an `upsert` batch. -/
def upsertList (s : Engine) : List AddEntry → Engine
  | [] => s
  | e :: rest => upsertList (upsertOne s e) rest

/-- Modelled from the spec: the engine's `upsert` (spec section 4.4);
the in-batch duplicate-id check applies as for `add`. -/
def upsertRecords (s : Engine) (batch : List AddEntry) : Except ChromaError Engine :=
  if (batch.map (fun e => e.id)).Nodup then .ok (upsertList s batch)
  else .error .duplicateIDError

/-- The error message of an empty delete, quoted from
`test_delete_empty_fails`. -/
def deleteMsg : String :=
  "You must provide either ids, where, or where_document to delete."

/-- The delete selector emptiness check.  Mirroring Python truthiness as
pinned by `test_delete_empty_fails`: an omitted selector, an explicitly
empty `ids=[]` list and an empty `where={}` / `where_document={}` predicate
all count as not provided. -/
def selectorEmpty (ids? : Option (List String)) (w? : Option WherePred)
    (wd? : Option WhereDocPred) : Bool :=
  (ids?.getD []).isEmpty && (w?.getD []).isEmpty && (wd?.getD []).isEmpty

/-- Whether a record is selected by a delete call's selectors
(conjunction of the provided dimensions). -/
def matchSelector (ids? : Option (List String)) (w? : Option WherePred)
    (wd? : Option WhereDocPred) (r : Record) : Bool :=
  (match ids? with | none => true | some ids => ids.contains r.id) &&
  (match w? with | none => true | some w => matchWhere w r) &&
  (match wd? with | none => true | some wd => matchWhereDoc wd r)

/-- Modelled from the spec and the tests: the engine's `delete`
(spec section 4.4; `test_delete_empty_fails` / `test_delete_success`):
a call whose selectors are all omitted or empty fails with
`InvalidArgument`; otherwise the matching records are removed and their
removal deltas handed to the synchronizer. -/
def deleteRecords (s : Engine) (ids? : Option (List String)) (w? : Option WherePred)
    (wd? : Option WhereDocPred) : Except ChromaError Engine :=
  if selectorEmpty ids? w? wd? then .error (.invalidArgument deleteMsg)
  else
    let removed := (s.records.filter (matchSelector ids? w? wd?)).map (fun r => r.id)
    .ok (pushDeltas
      { s with records := s.records.filter (fun r => !(matchSelector ids? w? wd? r)) }
      (removed.map .removeVec))

/-- The engine's `count` (spec section 4.4): the number of live records. -/
def countRecords (s : Engine) : ℕ :=
  s.records.length

/-- The ids returned by a bare `get()` (insertion order,
spec section 4.1). -/
def getIds (s : Engine) : List String :=
  s.records.map (fun r => r.id)

/-- The flushed index with the pending batch applied on top: what a reader
of the ANN index observes once the synchronizer has resolved the pending
deltas (spec section 4.3). -/
def effectiveIndex (s : Engine) : List (String × List ℚ) :=
  applyDeltas s.indexVecs s.pending

/-- First-match lookup of an id's vector in index contents. -/
def indexLookup (idx : List (String × List ℚ)) (i : String) : Option (List ℚ) :=
  (idx.find? (fun p => p.1 == i)).map (fun p => p.2)

/-- The authoritative embedding of an id in the Record Store. -/
def storeEmb (recs : List Record) (i : String) : Option (List ℚ) :=
  (recs.find? (fun r => r.id == i)).map (fun r => r.embedding)

/-- The authoritative metadata of an id in the Record Store. -/
def storeMeta (recs : List Record) (i : String) : Option (Option Metadata) :=
  (recs.find? (fun r => r.id == i)).map (fun r => r.metadata)

/-- Modelled from the spec: the vector read path of
`get(include=["embeddings"])` (spec section 4.3 edge-case policy): each
live id's vector is resolved through the flushed index plus the pending
batch; a missing slot is the "NoneType is not subscriptable" defect the
test `test_get_vector` probes for, surfaced here as `none`. -/
def getEmbeddings (s : Engine) : Option (List (List ℚ)) :=
  s.records.mapM (fun r => indexLookup (effectiveIndex s) r.id)

/-- Squared Euclidean distance between two vectors. -/
def sqDist (a b : List ℚ) : ℚ :=
  ((a.zip b).map (fun p => (p.1 - p.2) ^ 2)).sum

/-- The search order on (distance, original position) keys: ascending
distance, ties broken by insertion order. -/
def searchLe (x y : ℚ × ℕ) : Prop :=
  x.1 < y.1 ∨ (x.1 = y.1 ∧ x.2 ≤ y.2)

instance : DecidableRel searchLe := fun x y => by
  unfold searchLe; infer_instance

/-- The search order as a boolean comparator. -/
def searchLeB (x y : ℚ × ℕ) : Bool :=
  decide (searchLe x y)

/-- The (distance, position) key of every live record for one query
vector. -/
def distKeys (recs : List Record) (q : List ℚ) : List (ℚ × ℕ) :=
  recs.enum.map (fun p => (sqDist q p.2.embedding, p.1))

/-- Modelled from the spec: the ANN index adapter's search
(spec section 4.2), modelled as an exact ranking: all candidate keys
sorted ascending by the search order, truncated to `k`.  Exact search is
an admissible implementation of the approximate contract (the spec's
non-goal note: exactness is allowed, only recall is required). -/
def annSearchKeys (recs : List Record) (q : List ℚ) (k : ℕ) : List (ℚ × ℕ) :=
  ((distKeys recs q).insertionSort searchLe).take k

/-- The id of the record at a position (junk default for an out-of-range
position, which the search never produces). -/
def idAt (recs : List Record) (i : ℕ) : String :=
  ((recs.get? i).map (fun r => r.id)).getD ""

/-- The embedding of the record at a position. -/
def embAt (recs : List Record) (i : ℕ) : List ℚ :=
  ((recs.get? i).map (fun r => r.embedding)).getD []

/-- The metadata of the record at a position. -/
def metaAt (recs : List Record) (i : ℕ) : Option Metadata :=
  ((recs.get? i).map (fun r => r.metadata)).getD none

/-- The document of the record at a position. -/
def docAt (recs : List Record) (i : ℕ) : Option String :=
  ((recs.get? i).map (fun r => r.document)).getD none

/-- The reference true r-nearest-neighbor set "computed by exhaustive
distance comparison": every candidate key compared, ranked by a merge
sort under the same search order, truncated to `k` and mapped to ids. -/
def trueNearestIds (recs : List Record) (q : List ℚ) (k : ℕ) : List String :=
  (((distKeys recs q).mergeSort searchLeB).take k).map (fun p => idAt recs p.2)

/-- The result fields a caller may request with `include`. -/
inductive IncludeField where
  | embeddings
  | metadatas
  | documents
  | distances
deriving DecidableEq, Repr

/-- A query result: one ranked sequence per query vector; optional fields
present only when requested (spec section 3, "Query Result"). -/
structure QueryResult where
  ids : List (List String)
  embeddings : Option (List (List (List ℚ)))
  metadatas : Option (List (List (Option Metadata)))
  documents : Option (List (List (Option String)))
  distances : Option (List (List ℚ))
deriving DecidableEq, Repr

/-- Modelled from the spec: the engine's `query` (spec sections 4.4, 4.5):
for each query vector independently, rank the live records by distance,
truncate to `n_results`, and project the requested fields. -/
def queryCollection (s : Engine) (qs : List (List ℚ)) (n : ℕ)
    (incl : List IncludeField) : QueryResult :=
  let perQuery := qs.map (fun q => annSearchKeys s.records q n)
  { ids := perQuery.map (fun ks => ks.map (fun p => idAt s.records p.2))
    embeddings :=
      if incl.contains .embeddings then
        some (perQuery.map (fun ks => ks.map (fun p => embAt s.records p.2)))
      else none
    metadatas :=
      if incl.contains .metadatas then
        some (perQuery.map (fun ks => ks.map (fun p => metaAt s.records p.2)))
      else none
    documents :=
      if incl.contains .documents then
        some (perQuery.map (fun ks => ks.map (fun p => docAt s.records p.2)))
      else none
    distances :=
      if incl.contains .distances then
        some (perQuery.map (fun ks => ks.map (fun p => p.1)))
      else none }

/-- Recall of a returned neighbor list against a reference list: the
fraction of returned ids present in the reference set (1 by convention
when the reference set is empty). -/
def recallAt (result truth : List String) : ℚ :=
  if truth.length = 0 then 1
  else ((result.filter (fun i => truth.contains i)).length : ℚ) / (truth.length : ℚ)

/-- One operation of the randomized state machine
(`EmbeddingStateMachine`): add / update / upsert a batch, or delete by
ids. -/
inductive Op where
  | add (batch : List AddEntry)
  | update (batch : List UpdateEntry)
  | upsert (batch : List AddEntry)
  | delete (ids : List String)
deriving Repr

/-- Apply one operation to the engine; a rejected call leaves the state
untouched (spec section 7: no partial writes from a rejected call). -/
def applyOp (s : Engine) : Op → Engine
  | .add batch =>
      match addRecords s batch with
      | .ok s' => s'
      | .error _ => s
  | .update batch => updateRecords s batch
  | .upsert batch =>
      match upsertRecords s batch with
      | .ok s' => s'
      | .error _ => s
  | .delete ids =>
      match deleteRecords s (some ids) none none with
      | .ok s' => s'
      | .error _ => s

/-- Replay a sequence of operations from a starting state. -/
def replay (s : Engine) (ops : List Op) : Engine :=
  ops.foldl applyOp s

/-- One id folded into the reference model, translated from the test's
`_upsert_embeddings`: an id already tracked is left in place, a new id is
appended. -/
def refUpsertOne (ids : List String) (i : String) : List String :=
  if ids.contains i then ids else ids ++ [i]

/-- The external reference model of `EmbeddingStateMachine`, projected to
the id list it tracks (`record_set_state["ids"]`): `add`/`upsert` append
the genuinely new ids (`_upsert_embeddings` add path), `update` never
changes the id list, `delete_by_ids` removes the given ids
(`_remove_embeddings`); a call the engine rejects changes nothing. -/
def refApplyOp (ids : List String) : Op → List String
  | .add batch =>
      if (batch.map (fun e => e.id)).Nodup then
        (batch.map (fun e => e.id)).foldl refUpsertOne ids
      else ids
  | .update _ => ids
  | .upsert batch =>
      if (batch.map (fun e => e.id)).Nodup then
        (batch.map (fun e => e.id)).foldl refUpsertOne ids
      else ids
  | .delete dids =>
      if dids.isEmpty then ids
      else ids.filter (fun i => !(dids.contains i))

/-- Replay a sequence of operations through the reference model. -/
def refReplay (ids : List String) (ops : List Op) : List String :=
  ops.foldl refApplyOp ids

end Chroma

namespace ChromaServer

/-! The FastAPI server layer, embedded from
`chromadb/server/fastapi/__init__.py`. -/

/-- The authorization actions referenced by the collection-operation
handlers (`chromadb.auth.AuthzAction`). -/
inductive AuthzAction where
  | add
  | update
  | upsert
  | get
  | delete
  | count
  | query
  | reset
deriving DecidableEq, Repr

/-- The seven collection-operation endpoints of the claim. -/
inductive CollectionEndpoint where
  | add
  | update
  | upsert
  | get
  | delete
  | count
  | query
deriving DecidableEq, Repr

/-- The action each handler passes to
`authenticate_and_authorize_or_raise`, read off the source:
`FastAPI.add` passes `AuthzAction.ADD` (line 758), `update` `UPDATE`
(line 793), `upsert` `UPSERT` (line 822), `get` `GET` (line 850),
`delete` `DELETE` (line 882), `count` `COUNT` (line 916), and
`get_nearest_neighbors` passes `AuthzAction.RESET` (line 968). -/
def endpointAuthzAction : CollectionEndpoint → AuthzAction
  | .add => .add
  | .update => .update
  | .upsert => .upsert
  | .get => .get
  | .delete => .delete
  | .count => .count
  | .query => .reset

/-- The action a caller performing each operation actually holds in the
RBAC configuration (the operation-specific action the claim and the
authorization test speak of). -/
def operationAction : CollectionEndpoint → AuthzAction
  | .add => .add
  | .update => .update
  | .upsert => .upsert
  | .get => .get
  | .delete => .delete
  | .count => .count
  | .query => .query

/-- The authentication / authorization environment a request meets: whether
an authn provider is configured, whether it accepts the request's
credentials, and the authz provider's decision per action. -/
structure AuthEnv where
  authnEnabled : Bool
  authenticated : Bool
  authorized : AuthzAction → Bool

/-- What a collection-operation request resulted in. -/
inductive HandlerOutcome where
  | unauthorized
  | forbidden
  | engineInvoked
deriving DecidableEq, Repr

/-- The control flow of `authenticate_and_authorize_or_raise` followed by
the engine call, shared by all seven handlers: no authn provider skips both
checks; failed authentication raises 401 before the engine; a denied
`authorize` raises before the engine; only then is the engine API method
invoked. -/
def runCollectionEndpoint (env : AuthEnv) (ep : CollectionEndpoint) : HandlerOutcome :=
  if !env.authnEnabled then .engineInvoked
  else if !env.authenticated then .unauthorized
  else if !env.authorized (endpointAuthzAction ep) then .forbidden
  else .engineInvoked

/-- One route registration held by the router. -/
structure RouteEntry where
  path : String
  endpointId : ℕ
  includeInSchema : Bool
deriving DecidableEq, Repr

/-- The slash string of the trailing-slash handling. -/
def slashStr : String := "/"

/-- The slash character appended to a path without a trailing slash. -/
def slashChar : Char := '/'

/-- The trailing-slash toggle applied by `ChromaAPIRouter.add_api_route`
to derive the second registered path. -/
def toggleSlash (path : String) : String :=
  if path.endsWith slashStr then path.dropRight 1 else path.push slashChar

/-- `ChromaAPIRouter.add_api_route` (source lines 101-122): registers the
given path and its trailing-slash toggle against the same endpoint;
`include_in_schema` is forced to false for any path ending in a slash, and
for both paths when the caller passed `include_in_schema=False`. -/
def addApiRoute (routes : List RouteEntry) (path : String) (ep : ℕ)
    (includeKw : Option Bool) : List RouteEntry :=
  let excludeFromSchema : Bool := includeKw == some false
  let inclSchema : String → Bool := fun p => !excludeFromSchema && !(p.endsWith slashStr)
  let path2 := toggleSlash path
  routes ++ [⟨path, ep, inclSchema path⟩, ⟨path2, ep, inclSchema path2⟩]

end ChromaServer

namespace Chroma

/-! Association-list helpers shared by the metadata map and the index
contents, which both use the insert-or-replace / first-match-lookup
shape. -/

section PairLemmas

variable {β : Type}

/-- The insert-or-replace step shared by `insertMeta` and the
`upsertVec` case of `applyDelta`. -/
def setPair (m : List (String × β)) (k : String) (v : β) : List (String × β) :=
  if m.any (fun p => p.1 == k) then m.map (fun p => if p.1 == k then (k, v) else p)
  else m ++ [(k, v)]

/-- The first-match lookup shared by `metaLookup` and `indexLookup`. -/
def lookupPair (m : List (String × β)) (k : String) : Option β :=
  (m.find? (fun p => p.1 == k)).map (fun p => p.2)

theorem insertMeta_eq_setPair (m : Metadata) (k : String) (v : MetaValue) :
    insertMeta m k v = setPair m k v := rfl

theorem metaLookup_eq_lookupPair (m : Metadata) (k : String) :
    metaLookup m k = lookupPair m k := rfl

theorem applyDelta_upsert_eq_setPair (idx : List (String × List ℚ)) (i : String)
    (e : List ℚ) : applyDelta idx (.upsertVec i e) = setPair idx i e := rfl

theorem indexLookup_eq_lookupPair (idx : List (String × List ℚ)) (i : String) :
    indexLookup idx i = lookupPair idx i := rfl

/-- Lookup on a cons cell: either the head answers or the tail does. -/
theorem lookupPair_cons (a : String × β) (m : List (String × β)) (k : String) :
    lookupPair (a :: m) k =
      if a.1 == k then some a.2 else lookupPair m k := by
  unfold lookupPair
  cases h : (a.1 == k) <;> simp [List.find?_cons, h]

theorem lookupPair_setPair_self (m : List (String × β)) (k : String) (v : β) :
    lookupPair (setPair m k v) k = some v := by
  unfold setPair lookupPair
  by_cases h : m.any (fun p => p.1 == k)
  · rw [if_pos h]
    have hc : ((fun p : String × β => p.1 == k) ∘
        fun p : String × β => if p.1 == k then (k, v) else p) =
        fun p : String × β => p.1 == k := by
      funext p
      by_cases hp : p.1 = k <;> simp [Function.comp, hp]
    rw [List.find?_map, hc]
    cases hf : m.find? (fun p => p.1 == k) with
    | none =>
        exfalso
        obtain ⟨x, hx, hpx⟩ := List.any_eq_true.mp h
        exact (List.find?_eq_none.mp hf) x hx hpx
    | some q =>
        have hqk := List.find?_some hf
        simp only at hqk
        have hq1 : q.1 = k := by simpa using hqk
        simp [hq1]
  · rw [if_neg h]
    have hnone : m.find? (fun p => p.1 == k) = none := by
      rw [List.find?_eq_none]
      intro x hx hpx
      exact h (List.any_eq_true.mpr ⟨x, hx, hpx⟩)
    rw [List.find?_append, hnone]
    simp

theorem lookupPair_setPair_other (m : List (String × β)) (k j : String) (v : β)
    (h : j ≠ k) : lookupPair (setPair m k v) j = lookupPair m j := by
  unfold setPair lookupPair
  by_cases hm : m.any (fun p => p.1 == k)
  · rw [if_pos hm]
    have hc : ((fun p : String × β => p.1 == j) ∘
        fun p : String × β => if p.1 == k then (k, v) else p) =
        fun p : String × β => p.1 == j := by
      funext p
      by_cases hp : p.1 = k
      · have hkj : k ≠ j := Ne.symm h
        simp [hp, hkj]
      · simp [hp]
    rw [List.find?_map, hc]
    cases hf : m.find? (fun p => p.1 == j) with
    | none => simp
    | some q =>
        have hqj := List.find?_some hf
        simp only at hqj
        have hq1 : q.1 = j := by simpa using hqj
        have hqk : ¬(q.1 = k) := by
          rw [hq1]; exact h
        simp [hqk]
  · rw [if_neg hm, List.find?_append]
    have hv : ((k, v).1 == j) = false := by
      simp [Ne.symm h]
    simp [hv]

theorem lookupPair_filterNe_self (m : List (String × β)) (i : String) :
    lookupPair (m.filter (fun p => p.1 != i)) i = none := by
  unfold lookupPair
  have hn : (m.filter (fun p => p.1 != i)).find? (fun p => p.1 == i) = none := by
    rw [List.find?_eq_none]
    intro x hx
    have hne := List.of_mem_filter hx
    simpa using hne
  simp [hn]

theorem lookupPair_filterNe_other (m : List (String × β)) (i j : String)
    (h : j ≠ i) : lookupPair (m.filter (fun p => p.1 != i)) j = lookupPair m j := by
  induction m with
  | nil => rfl
  | cons a m ih =>
      by_cases hai : a.1 = i
      · have h1 : ¬((a.1 != i) = true) := by simp [hai]
        have h2 : (a.1 == j) = false := by simp [hai, Ne.symm h]
        rw [List.filter_cons, if_neg h1, ih, lookupPair_cons, h2]
        simp
      · have h1 : (a.1 != i) = true := by simp [hai]
        rw [List.filter_cons, if_pos h1, lookupPair_cons, lookupPair_cons, ih]

end PairLemmas

/-! Metadata merge lemmas. -/

theorem metaLookup_insertMeta_self (m : Metadata) (k : String) (v : MetaValue) :
    metaLookup (insertMeta m k v) k = some v := by
  rw [insertMeta_eq_setPair, metaLookup_eq_lookupPair]
  exact lookupPair_setPair_self m k v

theorem metaLookup_insertMeta_other (m : Metadata) (k j : String) (v : MetaValue)
    (h : j ≠ k) : metaLookup (insertMeta m k v) j = metaLookup m j := by
  rw [insertMeta_eq_setPair, metaLookup_eq_lookupPair, metaLookup_eq_lookupPair]
  exact lookupPair_setPair_other m k j v h

/-- The merge-not-overwrite law: a merged map answers with the supplied
value for supplied keys and with the pre-existing value for every other
key. -/
theorem metaLookup_mergeMeta (old new : Metadata)
    (hnd : (new.map (fun p => p.1)).Nodup) (k : String) :
    metaLookup (mergeMeta old new) k = (metaLookup new k).or (metaLookup old k) := by
  induction new generalizing old with
  | nil => simp [mergeMeta, metaLookup]
  | cons a rest ih =>
      have hnd' : (rest.map (fun p => p.1)).Nodup := by
        simpa using hnd.of_cons
      have hmerge : mergeMeta old (a :: rest) = mergeMeta (insertMeta old a.1 a.2) rest := by
        simp [mergeMeta]
      rw [hmerge, ih _ hnd']
      by_cases hk : k = a.1
      · have hfind : rest.find? (fun p => p.1 == k) = none := by
          rw [List.find?_eq_none]
          intro x hx hpx
          have hxk : x.1 = k := by simpa using hpx
          have hmem : k ∈ rest.map (fun p => p.1) :=
            hxk ▸ List.mem_map_of_mem _ hx
          have hka : a.1 ∉ rest.map (fun p => p.1) := by
            have hcopy := hnd
            simp only [List.map_cons, List.nodup_cons] at hcopy
            exact hcopy.1
          rw [hk] at hmem
          exact hka hmem
        have hrest : metaLookup rest k = none := by
          unfold metaLookup
          rw [hfind]
          rfl
        have hcons : metaLookup (a :: rest) k = some a.2 := by
          rw [metaLookup_eq_lookupPair, lookupPair_cons]
          simp [hk]
        have hself : metaLookup (insertMeta old a.1 a.2) k = some a.2 := by
          rw [hk]
          exact metaLookup_insertMeta_self old a.1 a.2
        rw [hrest, hcons, hself]
        simp
      · have hcons : metaLookup (a :: rest) k = metaLookup rest k := by
          rw [metaLookup_eq_lookupPair, lookupPair_cons]
          rw [if_neg (by simp [Ne.symm hk])]
          rfl
        rw [hcons, metaLookup_insertMeta_other _ _ _ _ hk]

/-! Batch synchronizer lemmas: pushing deltas never touches the record
store, and the effective index (flushed contents plus pending batch) is
insensitive to when flushes happen. -/

theorem records_pushDeltas (s : Engine) (ds : List IndexDelta) :
    (pushDeltas s ds).records = s.records := by
  unfold pushDeltas
  by_cases h : s.batchSize ≤ s.pending.length + ds.length <;>
    simp [List.length_append, h]

theorem batchSize_pushDeltas (s : Engine) (ds : List IndexDelta) :
    (pushDeltas s ds).batchSize = s.batchSize := by
  unfold pushDeltas
  by_cases h : s.batchSize ≤ s.pending.length + ds.length <;>
    simp [List.length_append, h]

theorem applyDeltas_append (idx : List (String × List ℚ)) (ds es : List IndexDelta) :
    applyDeltas idx (ds ++ es) = applyDeltas (applyDeltas idx ds) es := by
  unfold applyDeltas
  exact List.foldl_append _ _ _ _

theorem effectiveIndex_pushDeltas (s : Engine) (ds : List IndexDelta) :
    effectiveIndex (pushDeltas s ds) = applyDeltas (effectiveIndex s) ds := by
  unfold pushDeltas effectiveIndex
  by_cases h : s.batchSize ≤ s.pending.length + ds.length <;>
    simp [List.length_append, h, applyDeltas_append, applyDeltas]

/-! Record store lookup lemmas. -/

theorem storeEmb_cons (r : Record) (recs : List Record) (i : String) :
    storeEmb (r :: recs) i = if r.id == i then some r.embedding else storeEmb recs i := by
  unfold storeEmb
  cases h : (r.id == i) <;> simp [List.find?_cons, h]

theorem storeEmb_append_single (recs : List Record) (r : Record) (i : String)
    (hfresh : hasId recs r.id = false) :
    storeEmb (recs ++ [r]) i =
      if r.id == i then some r.embedding else storeEmb recs i := by
  by_cases hi : r.id = i
  · have hnone : recs.find? (fun x => x.id == i) = none := by
      rw [List.find?_eq_none]
      intro x hx hpx
      have hxid : x.id = i := by simpa using hpx
      have : hasId recs r.id = true :=
        List.any_eq_true.mpr ⟨x, hx, by simp [hxid, hi]⟩
      rw [hfresh] at this
      exact Bool.false_ne_true this
    unfold storeEmb
    rw [List.find?_append, hnone]
    simp [hi]
  · unfold storeEmb
    rw [List.find?_append]
    have hr : ((fun x : Record => x.id == i) r) = false := by simp [hi]
    cases hf : recs.find? (fun x => x.id == i) <;>
      simp [hf, hr, List.find?_cons, hi]

/-- `find?` through a map that preserves record ids. -/
theorem find?_id_map (recs : List Record) (g : Record → Record)
    (hg : ∀ r, (g r).id = r.id) (j : String) :
    (recs.map g).find? (fun r => r.id == j) =
      ((recs.find? (fun r => r.id == j)).map g) := by
  rw [List.find?_map]
  have hc : ((fun r : Record => r.id == j) ∘ g) = fun r : Record => r.id == j := by
    funext r
    simp [Function.comp, hg]
  rw [hc]

/-- `updatedRecord` never changes the id. -/
theorem updatedRecord_id (r : Record) (emb : Option (List ℚ)) (md : Option Metadata)
    (doc : Option String) : (updatedRecord r emb md doc).id = r.id := rfl

/-- The record found for the id of a member, under distinct ids. -/
theorem find?_self_of_nodup (recs : List Record) (r : Record)
    (hmem : r ∈ recs) (hnd : (recs.map (fun x => x.id)).Nodup) :
    recs.find? (fun x => x.id == r.id) = some r := by
  induction recs with
  | nil => cases hmem
  | cons a rest ih =>
      rcases List.mem_cons.mp hmem with h | h
      · rw [h]
        exact List.find?_cons_of_pos _ (by simp)
      · have hane : a.id ≠ r.id := by
          intro heq
          have : r.id ∈ rest.map (fun x => x.id) :=
            List.mem_map_of_mem _ h
          simp only [List.map_cons, List.nodup_cons] at hnd
          exact hnd.1 (heq ▸ this)
        rw [List.find?_cons_of_neg _ (by simp [hane])]
        exact ih h (by simpa using hnd.of_cons)

/-! The central engine invariant: record ids are distinct, and the
effective index answers exactly what the record store holds. -/

/-- The reconciliation property demanded by spec section 4.3: reading any
id through the flushed index plus pending deltas gives the latest Record
Store state. -/
def IndexConsistent (s : Engine) : Prop :=
  ∀ i, indexLookup (effectiveIndex s) i = storeEmb s.records i

/-- The engine invariant: id uniqueness plus index/store agreement. -/
def EngineInv (s : Engine) : Prop :=
  (s.records.map (fun r => r.id)).Nodup ∧ IndexConsistent s

theorem engineInv_init (b sync : ℕ) : EngineInv (initEngine b sync) := by
  constructor
  · simp [initEngine]
  · intro i
    rfl

theorem indexLookup_upsert_self (idx : List (String × List ℚ)) (i : String)
    (e : List ℚ) : indexLookup (applyDelta idx (.upsertVec i e)) i = some e := by
  rw [applyDelta_upsert_eq_setPair, indexLookup_eq_lookupPair]
  exact lookupPair_setPair_self idx i e

theorem indexLookup_upsert_other (idx : List (String × List ℚ)) (i j : String)
    (e : List ℚ) (h : j ≠ i) :
    indexLookup (applyDelta idx (.upsertVec i e)) j = indexLookup idx j := by
  rw [applyDelta_upsert_eq_setPair, indexLookup_eq_lookupPair,
    indexLookup_eq_lookupPair]
  exact lookupPair_setPair_other idx i j e h

theorem indexLookup_remove_self (idx : List (String × List ℚ)) (i : String) :
    indexLookup (applyDelta idx (.removeVec i)) i = none := by
  rw [indexLookup_eq_lookupPair]
  exact lookupPair_filterNe_self idx i

theorem indexLookup_remove_other (idx : List (String × List ℚ)) (i j : String)
    (h : j ≠ i) :
    indexLookup (applyDelta idx (.removeVec i)) j = indexLookup idx j := by
  rw [indexLookup_eq_lookupPair, indexLookup_eq_lookupPair]
  exact lookupPair_filterNe_other idx i j h

theorem applyDeltas_single (idx : List (String × List ℚ)) (d : IndexDelta) :
    applyDeltas idx [d] = applyDelta idx d := rfl

theorem hasId_iff_mem (recs : List Record) (i : String) :
    hasId recs i = true ↔ i ∈ recs.map (fun r => r.id) := by
  unfold hasId
  rw [List.any_eq_true]
  constructor
  · rintro ⟨r, hr, hri⟩
    have hid : r.id = i := by simpa using hri
    exact hid ▸ List.mem_map_of_mem _ hr
  · intro hmem
    obtain ⟨r, hr, hri⟩ := List.mem_map.mp hmem
    exact ⟨r, hr, by simp [hri]⟩

theorem storeEmb_none_of_not_mem (recs : List Record) (j : String)
    (h : j ∉ recs.map (fun r => r.id)) : storeEmb recs j = none := by
  unfold storeEmb
  have hf : recs.find? (fun r => r.id == j) = none := by
    rw [List.find?_eq_none]
    intro x hx hpx
    have hxj : x.id = j := by simpa using hpx
    exact h (hxj ▸ List.mem_map_of_mem _ hx)
  rw [hf]
  rfl

/-- Every mutating operation's shape: install new record contents and hand
the matching deltas to the synchronizer.  The invariant survives whenever
the deltas, applied on top of the current effective index, answer exactly
what the new store holds. -/
theorem engineInv_push (s : Engine) (recs : List Record) (ds : List IndexDelta)
    (hnd : (recs.map (fun r => r.id)).Nodup)
    (hlook : ∀ i, indexLookup (applyDeltas (effectiveIndex s) ds) i = storeEmb recs i) :
    EngineInv (pushDeltas { s with records := recs } ds) := by
  constructor
  · rw [records_pushDeltas]
    exact hnd
  · intro i
    rw [effectiveIndex_pushDeltas, records_pushDeltas]
    have he : effectiveIndex { s with records := recs } = effectiveIndex s := rfl
    rw [he]
    exact hlook i

theorem engineInv_addOne (s : Engine) (e : AddEntry) (h : EngineInv s) :
    EngineInv (addOne s e) := by
  unfold addOne
  by_cases hex : hasId s.records e.id
  · rw [if_pos hex]
    exact h
  · rw [if_neg hex]
    have hexF : hasId s.records e.id = false := by
      simpa using hex
    have hnotmem : e.id ∉ s.records.map (fun r => r.id) := by
      intro hmem
      rw [(hasId_iff_mem s.records e.id).mpr hmem] at hexF
      exact Bool.true_eq_false.mp hexF
    apply engineInv_push
    · rw [List.map_append, List.nodup_append]
      refine ⟨h.1, by simp [newRecord], ?_⟩
      intro x hx hx2
      have hxe : x = e.id := by simpa [newRecord] using hx2
      exact hnotmem (hxe ▸ hx)
    · intro i
      rw [applyDeltas_single]
      by_cases hie : i = e.id
      · rw [hie, indexLookup_upsert_self,
          storeEmb_append_single _ _ _ hexF]
        simp [newRecord]
      · rw [indexLookup_upsert_other _ _ _ _ hie,
          storeEmb_append_single _ _ _ hexF]
        have hne : (newRecord e).id ≠ i := fun hc => hie (hc.symm)
        rw [if_neg (by simpa [newRecord] using hne)]
        exact h.2 i

theorem engineInv_addList (s : Engine) (batch : List AddEntry) (h : EngineInv s) :
    EngineInv (addList s batch) := by
  induction batch generalizing s with
  | nil => exact h
  | cons e rest ih => exact ih _ (engineInv_addOne s e h)

/-- Ids are untouched by the id-preserving in-place map of
`updateOne`/`upsertOne`. -/
theorem map_update_ids (recs : List Record) (x : String)
    (f : Record → Record) (hf : ∀ r, (f r).id = r.id) :
    ((recs.map (fun r => if r.id == x then f r else r)).map (fun r => r.id)) =
      recs.map (fun r => r.id) := by
  rw [List.map_map]
  apply List.map_congr_left
  intro r _
  by_cases hr : r.id = x <;> simp [Function.comp, hr, hf]

theorem storeEmb_map_update (recs : List Record) (x : String)
    (f : Record → Record) (hf : ∀ r, (f r).id = r.id) (j : String) :
    storeEmb (recs.map (fun r => if r.id == x then f r else r)) j =
      (recs.find? (fun r => r.id == j)).map
        (fun r => if r.id == x then (f r).embedding else r.embedding) := by
  unfold storeEmb
  rw [find?_id_map]
  · cases hfind : recs.find? (fun r => r.id == j) with
    | none => rfl
    | some q =>
        by_cases hq : q.id = x <;> simp [hq]
  · intro r
    by_cases hr : r.id = x <;> simp [hr, hf]

theorem engineInv_updateOne (s : Engine) (e : UpdateEntry) (h : EngineInv s) :
    EngineInv (updateOne s e) := by
  unfold updateOne
  cases hf : s.records.find? (fun r => r.id == e.id) with
  | none => exact h
  | some old =>
      have hfid : ∀ r, (updatedRecord r e.embedding e.metadata e.document).id = r.id :=
        fun r => updatedRecord_id r _ _ _
      apply engineInv_push
      · rw [map_update_ids _ _ _ hfid]
        exact h.1
      · intro i
        rw [applyDeltas_single, storeEmb_map_update _ _ _ hfid]
        by_cases hie : i = e.id
        · rw [hie, indexLookup_upsert_self, hf]
          have hoid := List.find?_some hf
          have hoid2 : old.id = e.id := by simpa using hoid
          simp [hoid2, updatedRecord]
        · rw [indexLookup_upsert_other _ _ _ _ hie, h.2 i]
          unfold storeEmb
          cases hfind : s.records.find? (fun r => r.id == i) with
          | none => rfl
          | some q =>
              have hqp := List.find?_some hfind
              have hqi : q.id = i := by simpa using hqp
              have hqx : ¬(q.id = e.id) := by rw [hqi]; exact hie
              simp [hqx]

theorem engineInv_updateList (s : Engine) (batch : List UpdateEntry)
    (h : EngineInv s) : EngineInv (updateList s batch) := by
  induction batch generalizing s with
  | nil => exact h
  | cons e rest ih => exact ih _ (engineInv_updateOne s e h)

theorem engineInv_upsertOne (s : Engine) (e : AddEntry) (h : EngineInv s) :
    EngineInv (upsertOne s e) := by
  unfold upsertOne
  by_cases hex : hasId s.records e.id
  · rw [if_pos hex]
    have hfid : ∀ r, (updatedRecord r (some e.embedding) e.metadata e.document).id = r.id :=
      fun r => updatedRecord_id r _ _ _
    apply engineInv_push
    · rw [map_update_ids _ _ _ hfid]
      exact h.1
    · intro i
      rw [applyDeltas_single, storeEmb_map_update _ _ _ hfid]
      by_cases hie : i = e.id
      · rw [hie, indexLookup_upsert_self]
        obtain ⟨r, hr, hri⟩ := List.any_eq_true.mp hex
        cases hfind : s.records.find? (fun r => r.id == e.id) with
        | none =>
            exfalso
            exact (List.find?_eq_none.mp hfind) r hr hri
        | some q =>
            have hq := List.find?_some hfind
            have hq2 : q.id = e.id := by simpa using hq
            simp [hq2, updatedRecord]
      · rw [indexLookup_upsert_other _ _ _ _ hie, h.2 i]
        unfold storeEmb
        cases hfind : s.records.find? (fun r => r.id == i) with
        | none => rfl
        | some q =>
            have hqp := List.find?_some hfind
            have hqi : q.id = i := by simpa using hqp
            have hqx : ¬(q.id = e.id) := by rw [hqi]; exact hie
            simp [hqx]
  · rw [if_neg hex]
    have hexF : hasId s.records e.id = false := by simpa using hex
    have hnotmem : e.id ∉ s.records.map (fun r => r.id) := by
      intro hmem
      rw [(hasId_iff_mem s.records e.id).mpr hmem] at hexF
      exact Bool.true_eq_false.mp hexF
    apply engineInv_push
    · rw [List.map_append, List.nodup_append]
      refine ⟨h.1, by simp [newRecord], ?_⟩
      intro x hx hx2
      have hxe : x = e.id := by simpa [newRecord] using hx2
      exact hnotmem (hxe ▸ hx)
    · intro i
      rw [applyDeltas_single]
      by_cases hie : i = e.id
      · rw [hie, indexLookup_upsert_self, storeEmb_append_single _ _ _ hexF]
        simp [newRecord]
      · rw [indexLookup_upsert_other _ _ _ _ hie,
          storeEmb_append_single _ _ _ hexF]
        have hne : (newRecord e).id ≠ i := fun hc => hie (hc.symm)
        rw [if_neg (by simpa [newRecord] using hne)]
        exact h.2 i

theorem engineInv_upsertList (s : Engine) (batch : List AddEntry)
    (h : EngineInv s) : EngineInv (upsertList s batch) := by
  induction batch generalizing s with
  | nil => exact h
  | cons e rest ih => exact ih _ (engineInv_upsertOne s e h)

/-- Applying a list of removal deltas blanks exactly the removed ids. -/
theorem indexLookup_applyDeltas_removes (ids : List String)
    (idx : List (String × List ℚ)) (j : String) :
    indexLookup (applyDeltas idx (ids.map .removeVec)) j =
      if j ∈ ids then none else indexLookup idx j := by
  induction ids generalizing idx with
  | nil => simp [applyDeltas]
  | cons i rest ih =>
      have hstep : applyDeltas idx ((i :: rest).map .removeVec) =
          applyDeltas (applyDelta idx (.removeVec i)) (rest.map .removeVec) := rfl
      rw [hstep, ih]
      by_cases hjr : j ∈ rest
      · simp [hjr]
      · by_cases hji : j = i
        · simp [hjr, hji, indexLookup_remove_self]
        · simp [hjr, hji, indexLookup_remove_other _ _ _ hji]

theorem storeEmb_cons_eq (r : Record) (recs : List Record) (j : String)
    (h : r.id = j) : storeEmb (r :: recs) j = some r.embedding := by
  rw [storeEmb_cons, if_pos (by simp [h])]

theorem storeEmb_cons_ne (r : Record) (recs : List Record) (j : String)
    (h : ¬(r.id = j)) : storeEmb (r :: recs) j = storeEmb recs j := by
  rw [storeEmb_cons, if_neg (by simp [h])]

/-- Filtering the store removes exactly the matched ids from lookups,
under distinct ids. -/
theorem storeEmb_filter_not (recs : List Record) (p : Record → Bool) (j : String)
    (hnd : (recs.map (fun r => r.id)).Nodup) :
    storeEmb (recs.filter (fun r => !(p r))) j =
      if j ∈ (recs.filter p).map (fun r => r.id) then none else storeEmb recs j := by
  induction recs with
  | nil => simp [storeEmb]
  | cons r rest ih =>
      have hnd' : (rest.map (fun x => x.id)).Nodup := by
        simpa using hnd.of_cons
      have hrid : r.id ∉ rest.map (fun x => x.id) := by
        simp only [List.map_cons, List.nodup_cons] at hnd
        exact hnd.1
      by_cases hp : p r
      · have hfilterNot : (r :: rest).filter (fun x => !(p x)) =
            rest.filter (fun x => !(p x)) := by
          rw [List.filter_cons, if_neg (by simp [hp])]
        have hfilterP : (r :: rest).filter p = r :: rest.filter p := by
          rw [List.filter_cons, if_pos (by simp [hp])]
        rw [hfilterNot, hfilterP, ih hnd']
        by_cases hj : j = r.id
        · have hmem : j ∈ (r :: (rest.filter p)).map (fun x => x.id) := by
            simp [hj]
          rw [if_pos hmem]
          by_cases hjr : j ∈ (rest.filter p).map (fun x => x.id)
          · rw [if_pos hjr]
          · rw [if_neg hjr]
            apply storeEmb_none_of_not_mem
            intro hc
            exact hrid (hj ▸ hc)
        · have hiff : (j ∈ (r :: (rest.filter p)).map (fun x => x.id)) ↔
              (j ∈ (rest.filter p).map (fun x => x.id)) := by
            simp [hj]
          by_cases hjr : j ∈ (rest.filter p).map (fun x => x.id)
          · rw [if_pos (hiff.mpr hjr), if_pos hjr]
          · rw [if_neg (fun hc => hjr (hiff.mp hc)), if_neg hjr,
              storeEmb_cons_ne r rest j (fun hc => hj hc.symm)]
      · have hfilterNot : (r :: rest).filter (fun x => !(p x)) =
            r :: rest.filter (fun x => !(p x)) := by
          rw [List.filter_cons, if_pos (by simp [hp])]
        have hfilterP : (r :: rest).filter p = rest.filter p := by
          rw [List.filter_cons, if_neg (by simp [hp])]
        rw [hfilterNot, hfilterP]
        by_cases hj : j = r.id
        · have hnmem : j ∉ (rest.filter p).map (fun x => x.id) := by
            intro hc
            obtain ⟨x, hx, hxid⟩ := List.mem_map.mp hc
            have hxrest : x ∈ rest := List.mem_of_mem_filter hx
            have hxm : x.id ∈ rest.map (fun x => x.id) :=
              List.mem_map_of_mem _ hxrest
            rw [hxid, hj] at hxm
            exact hrid hxm
          rw [if_neg hnmem, storeEmb_cons_eq r _ j hj.symm,
            storeEmb_cons_eq r rest j hj.symm]
        · rw [storeEmb_cons_ne r _ j (fun hc => hj hc.symm), ih hnd']
          by_cases hjr : j ∈ (rest.filter p).map (fun x => x.id)
          · rw [if_pos hjr, if_pos hjr]
          · rw [if_neg hjr, if_neg hjr,
              storeEmb_cons_ne r rest j (fun hc => hj hc.symm)]

theorem engineInv_delete (s s' : Engine) (ids? : Option (List String))
    (w? : Option WherePred) (wd? : Option WhereDocPred) (h : EngineInv s)
    (hok : deleteRecords s ids? w? wd? = .ok s') : EngineInv s' := by
  unfold deleteRecords at hok
  by_cases hsel : selectorEmpty ids? w? wd?
  · rw [if_pos hsel] at hok
    cases hok
  · rw [if_neg hsel] at hok
    have hs' : s' = pushDeltas
        { s with records := s.records.filter (fun r => !(matchSelector ids? w? wd? r)) }
        (((s.records.filter (matchSelector ids? w? wd?)).map (fun r => r.id)).map
          .removeVec) := by
      cases hok
      rfl
    rw [hs']
    apply engineInv_push
    · have hsub : (s.records.filter (fun r => !(matchSelector ids? w? wd? r))).map
          (fun r => r.id) |>.Sublist (s.records.map (fun r => r.id)) :=
        List.Sublist.map _ (List.filter_sublist _)
      exact hsub.nodup h.1
    · intro i
      rw [indexLookup_applyDeltas_removes, h.2 i,
        storeEmb_filter_not _ _ _ h.1]

theorem engineInv_applyOp (s : Engine) (op : Op) (h : EngineInv s) :
    EngineInv (applyOp s op) := by
  cases op with
  | add batch =>
      simp only [applyOp, addRecords]
      by_cases hnd : (batch.map (fun e => e.id)).Nodup
      · rw [if_pos hnd]
        exact engineInv_addList s batch h
      · rw [if_neg hnd]
        exact h
  | update batch => exact engineInv_updateList s batch h
  | upsert batch =>
      simp only [applyOp, upsertRecords]
      by_cases hnd : (batch.map (fun e => e.id)).Nodup
      · rw [if_pos hnd]
        exact engineInv_upsertList s batch h
      · rw [if_neg hnd]
        exact h
  | delete ids =>
      simp only [applyOp]
      cases hdel : deleteRecords s (some ids) none none with
      | ok s' => exact engineInv_delete s s' _ _ _ h hdel
      | error err => exact h

theorem engineInv_replay (s : Engine) (ops : List Op) (h : EngineInv s) :
    EngineInv (replay s ops) := by
  induction ops generalizing s with
  | nil => exact h
  | cons op rest ih => exact ih _ (engineInv_applyOp s op h)

/-- `mapM` over a list where the function always answers. -/
theorem mapM_eq_map_of_some {α β : Type} (l : List α) (f : α → Option β)
    (g : α → β) (h : ∀ a ∈ l, f a = some (g a)) : l.mapM f = some (l.map g) := by
  induction l with
  | nil => rfl
  | cons a rest ih =>
      have ha : f a = some (g a) := h a (List.mem_cons_self a rest)
      have hrest : rest.mapM f = some (rest.map g) :=
        ih (fun x hx => h x (List.mem_cons_of_mem a hx))
      rw [List.mapM_cons, ha, hrest]
      rfl

/-- Under the engine invariant, the vector read path answers for every
live id and reproduces exactly the Record Store's embeddings: the
"list assignment index out of range" / "NoneType" failure modes cannot
occur. -/
theorem getEmbeddings_of_inv (s : Engine) (h : EngineInv s) :
    getEmbeddings s = some (s.records.map (fun r => r.embedding)) := by
  unfold getEmbeddings
  apply mapM_eq_map_of_some
  intro r hr
  rw [h.2 r.id]
  unfold storeEmb
  rw [find?_self_of_nodup s.records r hr h.1]
  rfl

/-! The engine's id list against the reference model's id list. -/

theorem contains_iff_mem (l : List String) (a : String) :
    l.contains a = true ↔ a ∈ l := by
  simp [List.contains, List.elem_iff]

theorem ids_addOne (s : Engine) (e : AddEntry) :
    (addOne s e).records.map (fun r => r.id) =
      refUpsertOne (s.records.map (fun r => r.id)) e.id := by
  unfold addOne refUpsertOne
  by_cases hex : hasId s.records e.id
  · rw [if_pos hex,
      if_pos ((contains_iff_mem _ _).mpr ((hasId_iff_mem _ _).mp hex))]
  · have hexF : hasId s.records e.id = false := by simpa using hex
    have hnm : e.id ∉ s.records.map (fun r => r.id) := by
      intro hmem
      rw [(hasId_iff_mem s.records e.id).mpr hmem] at hexF
      exact Bool.true_eq_false.mp hexF
    rw [if_neg hex, if_neg (fun hc => hnm ((contains_iff_mem _ _).mp hc)),
      records_pushDeltas]
    simp [newRecord]

theorem ids_addList (s : Engine) (batch : List AddEntry) :
    (addList s batch).records.map (fun r => r.id) =
      (batch.map (fun e => e.id)).foldl refUpsertOne
        (s.records.map (fun r => r.id)) := by
  induction batch generalizing s with
  | nil => rfl
  | cons e rest ih =>
      show (addList (addOne s e) rest).records.map (fun r => r.id) = _
      rw [ih, List.map_cons, List.foldl_cons, ids_addOne]

theorem ids_updateOne (s : Engine) (e : UpdateEntry) :
    (updateOne s e).records.map (fun r => r.id) =
      s.records.map (fun r => r.id) := by
  unfold updateOne
  cases hf : s.records.find? (fun r => r.id == e.id) with
  | none => rfl
  | some old =>
      rw [records_pushDeltas,
        map_update_ids _ _ _ (fun r => updatedRecord_id r _ _ _)]

theorem ids_updateList (s : Engine) (batch : List UpdateEntry) :
    (updateList s batch).records.map (fun r => r.id) =
      s.records.map (fun r => r.id) := by
  induction batch generalizing s with
  | nil => rfl
  | cons e rest ih =>
      show (updateList (updateOne s e) rest).records.map (fun r => r.id) = _
      rw [ih, ids_updateOne]

theorem ids_upsertOne (s : Engine) (e : AddEntry) :
    (upsertOne s e).records.map (fun r => r.id) =
      refUpsertOne (s.records.map (fun r => r.id)) e.id := by
  unfold upsertOne refUpsertOne
  by_cases hex : hasId s.records e.id
  · rw [if_pos hex,
      if_pos ((contains_iff_mem _ _).mpr ((hasId_iff_mem _ _).mp hex)),
      records_pushDeltas,
      map_update_ids _ _ _ (fun r => updatedRecord_id r _ _ _)]
  · have hexF : hasId s.records e.id = false := by simpa using hex
    have hnm : e.id ∉ s.records.map (fun r => r.id) := by
      intro hmem
      rw [(hasId_iff_mem s.records e.id).mpr hmem] at hexF
      exact Bool.true_eq_false.mp hexF
    rw [if_neg hex, if_neg (fun hc => hnm ((contains_iff_mem _ _).mp hc)),
      records_pushDeltas]
    simp [newRecord]

theorem ids_upsertList (s : Engine) (batch : List AddEntry) :
    (upsertList s batch).records.map (fun r => r.id) =
      (batch.map (fun e => e.id)).foldl refUpsertOne
        (s.records.map (fun r => r.id)) := by
  induction batch generalizing s with
  | nil => rfl
  | cons e rest ih =>
      show (upsertList (upsertOne s e) rest).records.map (fun r => r.id) = _
      rw [ih, List.map_cons, List.foldl_cons, ids_upsertOne]

theorem map_id_filter (recs : List Record) (q : String → Bool) :
    (recs.filter (fun r => q r.id)).map (fun r => r.id) =
      (recs.map (fun r => r.id)).filter q := by
  induction recs with
  | nil => rfl
  | cons r rest ih =>
      by_cases hq : q r.id <;>
        simp [List.filter_cons, hq, ih]

theorem matchSelector_ids_only (dids : List String) (r : Record) :
    matchSelector (some dids) none none r = dids.contains r.id := by
  simp [matchSelector]

theorem selectorEmpty_ids_only (dids : List String) :
    selectorEmpty (some dids) none none = dids.isEmpty := by
  simp [selectorEmpty]

theorem ids_applyOp (s : Engine) (op : Op) :
    (applyOp s op).records.map (fun r => r.id) =
      refApplyOp (s.records.map (fun r => r.id)) op := by
  cases op with
  | add batch =>
      simp only [applyOp, addRecords, refApplyOp]
      by_cases hnd : (batch.map (fun e => e.id)).Nodup
      · rw [if_pos hnd, if_pos hnd]
        exact ids_addList s batch
      · rw [if_neg hnd, if_neg hnd]
  | update batch =>
      simp only [applyOp, refApplyOp]
      exact ids_updateList s batch
  | upsert batch =>
      simp only [applyOp, upsertRecords, refApplyOp]
      by_cases hnd : (batch.map (fun e => e.id)).Nodup
      · rw [if_pos hnd, if_pos hnd]
        exact ids_upsertList s batch
      · rw [if_neg hnd, if_neg hnd]
  | delete dids =>
      simp only [applyOp, deleteRecords, refApplyOp, selectorEmpty_ids_only]
      by_cases hemp : dids.isEmpty
      · rw [if_pos hemp, if_pos hemp]
      · rw [if_neg hemp, if_neg hemp]
        rw [records_pushDeltas]
        have hsel : (fun r => !(matchSelector (some dids) none none r)) =
            fun r : Record => !(dids.contains r.id) := by
          funext r
          rw [matchSelector_ids_only]
        rw [hsel]
        exact map_id_filter s.records (fun i => !(dids.contains i))

theorem ids_replay (ops : List Op) (s : Engine) (ids0 : List String)
    (h : s.records.map (fun r => r.id) = ids0) :
    (replay s ops).records.map (fun r => r.id) = refReplay ids0 ops := by
  induction ops generalizing s ids0 with
  | nil => exact h
  | cons op rest ih =>
      show (replay (applyOp s op) rest).records.map (fun r => r.id) = _
      exact ih (applyOp s op) (refApplyOp ids0 op)
        (by rw [ids_applyOp, h])

theorem nodup_refUpsertOne (ids : List String) (i : String) (h : ids.Nodup) :
    (refUpsertOne ids i).Nodup := by
  unfold refUpsertOne
  by_cases hc : ids.contains i
  · rw [if_pos hc]
    exact h
  · rw [if_neg hc]
    rw [List.nodup_append]
    refine ⟨h, List.nodup_singleton i, ?_⟩
    intro x hx hx2
    have hxi : x = i := by simpa using hx2
    exact hc ((contains_iff_mem _ _).mpr (hxi ▸ hx))

theorem nodup_foldl_refUpsertOne (new : List String) (ids : List String)
    (h : ids.Nodup) : (new.foldl refUpsertOne ids).Nodup := by
  induction new generalizing ids with
  | nil => exact h
  | cons i rest ih => exact ih _ (nodup_refUpsertOne ids i h)

theorem nodup_refApplyOp (ids : List String) (op : Op) (h : ids.Nodup) :
    (refApplyOp ids op).Nodup := by
  cases op with
  | add batch =>
      simp only [refApplyOp]
      by_cases hnd : (batch.map (fun e => e.id)).Nodup
      · rw [if_pos hnd]
        exact nodup_foldl_refUpsertOne _ _ h
      · rw [if_neg hnd]
        exact h
  | update batch => exact h
  | upsert batch =>
      simp only [refApplyOp]
      by_cases hnd : (batch.map (fun e => e.id)).Nodup
      · rw [if_pos hnd]
        exact nodup_foldl_refUpsertOne _ _ h
      · rw [if_neg hnd]
        exact h
  | delete dids =>
      simp only [refApplyOp]
      by_cases hemp : dids.isEmpty
      · rw [if_pos hemp]
        exact h
      · rw [if_neg hemp]
        exact (List.filter_sublist _).nodup h

theorem nodup_refReplay (ops : List Op) (ids : List String) (h : ids.Nodup) :
    (refReplay ids ops).Nodup := by
  induction ops generalizing ids with
  | nil => exact h
  | cons op rest ih => exact ih _ (nodup_refApplyOp ids op h)

/-! The partial-application characterization of `add` and its
idempotence. -/

theorem hasId_append (recs rs : List Record) (i : String) :
    hasId (recs ++ rs) i = (hasId recs i || hasId rs i) := by
  simp [hasId, List.any_append]

theorem addList_records (s : Engine) (batch : List AddEntry)
    (hnd : (batch.map (fun e => e.id)).Nodup) :
    (addList s batch).records =
      s.records ++ (batch.filter (fun e => !(hasId s.records e.id))).map newRecord := by
  induction batch generalizing s with
  | nil => simp [addList]
  | cons e rest ih =>
      have hnotin : e.id ∉ rest.map (fun x => x.id) := by
        simp only [List.map_cons, List.nodup_cons] at hnd
        exact hnd.1
      have hnd' : (rest.map (fun x => x.id)).Nodup := by
        simp only [List.map_cons, List.nodup_cons] at hnd
        exact hnd.2
      show (addList (addOne s e) rest).records = _
      by_cases hex : hasId s.records e.id
      · have hone : addOne s e = s := by
          unfold addOne
          rw [if_pos hex]
        rw [hone, ih s hnd', List.filter_cons, if_neg (by simp [hex])]
      · have hexF : hasId s.records e.id = false := by simpa using hex
        have hone : (addOne s e).records = s.records ++ [newRecord e] := by
          unfold addOne
          rw [if_neg hex, records_pushDeltas]
        have hsame : ∀ e2 ∈ rest,
            hasId (addOne s e).records e2.id = hasId s.records e2.id := by
          intro e2 he2
          rw [hone, hasId_append]
          have hne : (newRecord e).id ≠ e2.id := by
            intro hc
            exact hnotin (by
              rw [show e.id = e2.id from hc]
              exact List.mem_map_of_mem _ he2)
          have hsingle : hasId [newRecord e] e2.id = false := by
            simp [hasId, hne]
          rw [hsingle, Bool.or_false]
        have hsame2 : ∀ e2 ∈ rest,
            (!(hasId (s.records ++ [newRecord e]) e2.id)) =
              (!(hasId s.records e2.id)) := by
          intro e2 he2
          rw [← hone, hsame e2 he2]
        rw [ih (addOne s e) hnd', hone, List.filter_cons,
          if_pos (by simp [hexF]), List.filter_congr hsame2]
        simp

theorem addList_of_all_present (s : Engine) (batch : List AddEntry)
    (h : ∀ e ∈ batch, hasId s.records e.id = true) : addList s batch = s := by
  induction batch with
  | nil => rfl
  | cons e rest ih =>
      have hone : addOne s e = s := by
        unfold addOne
        rw [if_pos (h e (List.mem_cons_self e rest))]
      show addList (addOne s e) rest = s
      rw [hone]
      exact ih (fun x hx => h x (List.mem_cons_of_mem e hx))

theorem hasId_addOne_mono (s : Engine) (e : AddEntry) (i : String)
    (h : hasId s.records i = true) : hasId (addOne s e).records i = true := by
  unfold addOne
  by_cases hex : hasId s.records e.id
  · rw [if_pos hex]
    exact h
  · rw [if_neg hex, records_pushDeltas, hasId_append, h]
    rfl

theorem hasId_addList_mono (s : Engine) (batch : List AddEntry) (i : String)
    (h : hasId s.records i = true) : hasId (addList s batch).records i = true := by
  induction batch generalizing s with
  | nil => exact h
  | cons e rest ih =>
      show hasId (addList (addOne s e) rest).records i = true
      exact ih _ (hasId_addOne_mono s e i h)

theorem hasId_addOne_self (s : Engine) (e : AddEntry) :
    hasId (addOne s e).records e.id = true := by
  unfold addOne
  by_cases hex : hasId s.records e.id
  · rw [if_pos hex]
    exact hex
  · rw [if_neg hex, records_pushDeltas, hasId_append]
    have hsingle : hasId [newRecord e] e.id = true := by
      simp [hasId, newRecord]
    rw [hsingle, Bool.or_true]

theorem all_present_after_addList (s : Engine) (batch : List AddEntry) :
    ∀ e ∈ batch, hasId (addList s batch).records e.id = true := by
  induction batch generalizing s with
  | nil => intro e he; cases he
  | cons e rest ih =>
      intro x hx
      rcases List.mem_cons.mp hx with h | h
      · show hasId (addList (addOne s e) rest).records x.id = true
        rw [h]
        exact hasId_addList_mono _ rest e.id (hasId_addOne_self s e)
      · exact ih (addOne s e) x h

theorem addList_idempotent (s : Engine) (batch : List AddEntry) :
    addList (addList s batch) batch = addList s batch :=
  addList_of_all_present _ batch (all_present_after_addList s batch)

/-! The search order is a total, transitive, antisymmetric relation, so
the engine's ranking and the exhaustive reference ranking agree. -/

theorem searchLe_trans (a b c : ℚ × ℕ) (hab : searchLe a b) (hbc : searchLe b c) :
    searchLe a c := by
  rcases hab with h1 | ⟨h1, h2⟩ <;> rcases hbc with h3 | ⟨h3, h4⟩
  · exact Or.inl (lt_trans h1 h3)
  · exact Or.inl (h3 ▸ h1)
  · exact Or.inl (h1 ▸ h3)
  · exact Or.inr ⟨h1.trans h3, le_trans h2 h4⟩

theorem searchLe_total (a b : ℚ × ℕ) : searchLe a b ∨ searchLe b a := by
  rcases lt_trichotomy a.1 b.1 with h | h | h
  · exact Or.inl (Or.inl h)
  · rcases le_total a.2 b.2 with h2 | h2
    · exact Or.inl (Or.inr ⟨h, h2⟩)
    · exact Or.inr (Or.inr ⟨h.symm, h2⟩)
  · exact Or.inr (Or.inl h)

theorem searchLe_antisymm (a b : ℚ × ℕ) (hab : searchLe a b) (hba : searchLe b a) :
    a = b := by
  rcases hab with h1 | ⟨h1, h2⟩ <;> rcases hba with h3 | ⟨h3, h4⟩
  · exact absurd h3 (lt_asymm h1)
  · exact absurd h1 (h3 ▸ lt_irrefl a.1)
  · exact absurd h3 (h1 ▸ lt_irrefl a.1)
  · exact Prod.ext h1 (le_antisymm h2 h4)

instance : IsTrans (ℚ × ℕ) searchLe := ⟨searchLe_trans⟩

instance : IsTotal (ℚ × ℕ) searchLe := ⟨searchLe_total⟩

instance : IsAntisymm (ℚ × ℕ) searchLe := ⟨searchLe_antisymm⟩

theorem searchLeB_iff (a b : ℚ × ℕ) : searchLeB a b = true ↔ searchLe a b := by
  simp [searchLeB]

theorem insertionSort_eq_mergeSort (l : List (ℚ × ℕ)) :
    l.insertionSort searchLe = l.mergeSort searchLeB := by
  have htransB : ∀ a b c : ℚ × ℕ, searchLeB a b = true → searchLeB b c = true →
      searchLeB a c = true := by
    intro a b c h1 h2
    rw [searchLeB_iff] at h1 h2 ⊢
    exact searchLe_trans a b c h1 h2
  have htotalB : ∀ a b : ℚ × ℕ, (searchLeB a b || searchLeB b a) = true := by
    intro a b
    rcases searchLe_total a b with h | h
    · rw [(searchLeB_iff a b).mpr h]
      rfl
    · rw [(searchLeB_iff b a).mpr h]
      simp
  apply List.eq_of_perm_of_sorted (r := searchLe)
    ((List.perm_insertionSort searchLe l).trans (List.mergeSort_perm l searchLeB).symm)
  · exact List.sorted_insertionSort searchLe l
  · have hp := List.sorted_mergeSort htransB htotalB l
    exact hp.imp (fun hb => (searchLeB_iff _ _).mp hb)

theorem annSearchKeys_eq_exhaustive (recs : List Record) (q : List ℚ) (k : ℕ) :
    annSearchKeys recs q k = ((distKeys recs q).mergeSort searchLeB).take k := by
  unfold annSearchKeys
  rw [insertionSort_eq_mergeSort]

theorem recallAt_self (l : List String) : recallAt l l = 1 := by
  unfold recallAt
  by_cases h : l.length = 0
  · rw [if_pos h]
  · rw [if_neg h]
    have hf : l.filter (fun i => l.contains i) = l :=
      List.filter_eq_self.mpr (fun a ha => (contains_iff_mem _ _).mpr ha)
    rw [hf]
    exact div_self (by exact_mod_cast h)

theorem storeMeta_map_update (recs : List Record) (x : String)
    (f : Record → Record) (hf : ∀ r, (f r).id = r.id) (j : String) :
    storeMeta (recs.map (fun r => if r.id == x then f r else r)) j =
      (recs.find? (fun r => r.id == j)).map
        (fun r => if r.id == x then (f r).metadata else r.metadata) := by
  unfold storeMeta
  rw [find?_id_map]
  · cases hfind : recs.find? (fun r => r.id == j) with
    | none => rfl
    | some q =>
        by_cases hq : q.id = x <;> simp [hq]
  · intro r
    by_cases hr : r.id = x <;> simp [hr, hf]

/-! Concrete values used by the scenario conjuncts and witnesses. -/

/-- The id "a" of the spec scenarios. -/
def idA : String := "a"

/-- Auxiliary distinct ids for concrete runs. -/
def idB : String := "b"

def idC : String := "c"

def idD : String := "d"

def keyOne : String := "k1"

def keyTwo : String := "k2"

def valOne : String := "v1"

def valTwo : String := "v2"

/-- The add entry of the existing-duplicate scenario:
`add(ids=["a"], embeddings=[[0.0]])`. -/
def entryA : AddEntry := ⟨idA, [0], none, none⟩

/-- The second entry of the duplicate-in-batch scenario (embedding 1.1). -/
def entryA2 : AddEntry := ⟨idA, [11/10], none, none⟩

/-! The claims. -/

/-- C1, counterexample: the claim states that `delete(ids=[])` and
`delete(where={})` succeed and delete nothing; the repository's own test
`test_delete_empty_fails` (parameterized over `{"ids": []}`, `{"where": {}}`
and `{"where_document": {}}`) requires exactly these calls to fail with
"You must provide either ids, where, or where_document to delete.", and
the modelled engine does fail them. -/
theorem delete_empty_ids_rejected_cex :
    deleteRecords (initEngine 100 1000) (some []) none none =
      .error (.invalidArgument deleteMsg) ∧
    deleteRecords (initEngine 100 1000) none (some []) none =
      .error (.invalidArgument deleteMsg) ∧
    deleteRecords (initEngine 100 1000) none none (some []) =
      .error (.invalidArgument deleteMsg) := by
  refine ⟨rfl, rfl, rfl⟩

/-- C1 (amended): a delete call fails with `InvalidArgument` ("You must
provide either ids, where, or where_document to delete.") exactly when the
ids, where and where_document selectors are all omitted **or empty**
(`ids=[]` and `where={}` are rejected the same way as full omission, per
`test_delete_empty_fails`); a call with at least one non-empty selector
succeeds and removes exactly the matching records — in particular it
deletes nothing from an empty collection (`test_delete_success`). -/
theorem delete_selector_validation (s : Engine) (ids? : Option (List String))
    (w? : Option WherePred) (wd? : Option WhereDocPred) :
    (deleteRecords s ids? w? wd? = .error (.invalidArgument deleteMsg) ↔
      (ids?.getD [] = [] ∧ w?.getD [] = [] ∧ wd?.getD [] = [])) ∧
    (¬(ids?.getD [] = [] ∧ w?.getD [] = [] ∧ wd?.getD [] = []) →
      ∃ s', deleteRecords s ids? w? wd? = .ok s' ∧
        s'.records = s.records.filter (fun r => !(matchSelector ids? w? wd? r)) ∧
        (s.records = [] → s'.records = [])) := by
  have hempty : selectorEmpty ids? w? wd? = true ↔
      (ids?.getD [] = [] ∧ w?.getD [] = [] ∧ wd?.getD [] = []) := by
    unfold selectorEmpty
    simp [List.isEmpty_iff, and_assoc]
  constructor
  · unfold deleteRecords
    by_cases hsel : selectorEmpty ids? w? wd?
    · rw [if_pos hsel]
      simp [hempty.mp hsel]
    · rw [if_neg hsel]
      constructor
      · intro hc
        cases hc
      · intro hc
        exact absurd (hempty.mpr hc) hsel
  · intro hne
    have hselF : ¬(selectorEmpty ids? w? wd? = true) := fun hc => hne (hempty.mp hc)
    refine ⟨pushDeltas
        { s with records := s.records.filter (fun r => !(matchSelector ids? w? wd? r)) }
        (((s.records.filter (matchSelector ids? w? wd?)).map (fun r => r.id)).map
          .removeVec), ?_, ?_, ?_⟩
    · unfold deleteRecords
      rw [if_neg hselF]
    · rw [records_pushDeltas]
    · intro hrec
      rw [records_pushDeltas, hrec]
      rfl

/-- C1 witness: `delete(ids=[])` on a fresh collection is rejected. -/
theorem delete_selector_validation_witness :
    deleteRecords (initEngine 100 1000) (some []) none none =
      .error (.invalidArgument deleteMsg) :=
  (delete_selector_validation (initEngine 100 1000) (some []) none none).1.mpr
    ⟨rfl, rfl, rfl⟩

/-- C2: for an `add` whose batch (with distinct ids) overlaps the existing
collection, the call succeeds, exactly the not-yet-present entries are
appended, and re-running the identical `add` afterwards succeeds as a
no-op (the engine state is unchanged, so no duplicates and count
unchanged); in particular `add(ids=["a"], embeddings=[[0.0]])` twice leaves
`count() == 1` and `get()["ids"] == ["a"]`. -/
theorem partial_add_idempotent (s : Engine) (batch : List AddEntry)
    (hnd : (batch.map (fun e => e.id)).Nodup)
    (hover : ∃ e ∈ batch, hasId s.records e.id = true) :
    addRecords s batch = .ok (addList s batch) ∧
    (addList s batch).records =
      s.records ++ (batch.filter (fun e => !(hasId s.records e.id))).map newRecord ∧
    addRecords (addList s batch) batch = .ok (addList s batch) ∧
    countRecords (addList (addList (initEngine 100 1000) [entryA]) [entryA]) = 1 ∧
    getIds (addList (addList (initEngine 100 1000) [entryA]) [entryA]) = [idA] := by
  refine ⟨?_, addList_records s batch hnd, ?_, by decide, by decide⟩
  · unfold addRecords
    rw [if_pos hnd]
  · unfold addRecords
    rw [if_pos hnd, addList_idempotent]

/-- C2 witness: re-adding id "a" over a collection already holding "a" is
accepted and changes nothing. -/
theorem partial_add_idempotent_witness :
    addRecords (addList (initEngine 100 1000) [entryA]) [entryA] =
      .ok (addList (addList (initEngine 100 1000) [entryA]) [entryA]) :=
  (partial_add_idempotent (addList (initEngine 100 1000) [entryA]) [entryA]
    (by decide) ⟨entryA, by decide, by decide⟩).1

/-- C3: updating an existing record (and the update path of `upsert`) with
a metadata map merges the supplied keys into the existing metadata: the
merged map answers supplied keys with the new values and every other key
with its pre-existing value; `{"k1": "v1"}` updated with `{"k2": "v2"}`
yields both pairs, not a replacement. -/
theorem update_merges_metadata (s : Engine) (i : String) (r : Record)
    (old new : Metadata) (emb : List ℚ)
    (hfind : s.records.find? (fun x => x.id == i) = some r)
    (hmeta : r.metadata = some old)
    (hnd : (new.map (fun p => p.1)).Nodup) :
    storeMeta (updateRecords s [⟨i, none, some new, none⟩]).records i =
      some (some (mergeMeta old new)) ∧
    storeMeta (upsertList s [⟨i, emb, some new, none⟩]).records i =
      some (some (mergeMeta old new)) ∧
    (∀ k, metaLookup (mergeMeta old new) k = (metaLookup new k).or (metaLookup old k)) ∧
    mergeMeta [(keyOne, .str valOne)] [(keyTwo, .str valTwo)] =
      [(keyOne, .str valOne), (keyTwo, .str valTwo)] := by
  have hrid := List.find?_some hfind
  have hrid2 : r.id = i := by simpa using hrid
  refine ⟨?_, ?_, metaLookup_mergeMeta old new hnd, by decide⟩
  · show storeMeta (updateOne s ⟨i, none, some new, none⟩).records i = _
    unfold updateOne
    rw [hfind, records_pushDeltas,
      storeMeta_map_update _ _ _ (fun x => updatedRecord_id x _ _ _) i, hfind]
    simp [hrid2, updatedRecord, hmeta]
  · show storeMeta (upsertOne s ⟨i, emb, some new, none⟩).records i = _
    unfold upsertOne
    have hex : hasId s.records i = true :=
      List.any_eq_true.mpr ⟨r, List.mem_of_find?_eq_some hfind, hrid⟩
    rw [if_pos hex, records_pushDeltas,
      storeMeta_map_update _ _ _ (fun x => updatedRecord_id x _ _ _) i, hfind]
    simp [hrid2, updatedRecord, hmeta]

/-- C3 witness: the concrete `{"k1": "v1"}` / `{"k2": "v2"}` merge through
the update operation. -/
theorem update_merges_metadata_witness :
    storeMeta (updateRecords
        (addList (initEngine 100 1000) [⟨idA, [0], some [(keyOne, .str valOne)], none⟩])
        [⟨idA, none, some [(keyTwo, .str valTwo)], none⟩]).records idA =
      some (some (mergeMeta [(keyOne, .str valOne)] [(keyTwo, .str valTwo)])) :=
  (update_merges_metadata
    (addList (initEngine 100 1000) [⟨idA, [0], some [(keyOne, .str valOne)], none⟩])
    idA ⟨idA, [0], some [(keyOne, .str valOne)], none⟩
    [(keyOne, .str valOne)] [(keyTwo, .str valTwo)] [0]
    (by decide) (by decide) (by decide)).1

/-- C4: an `add` or `upsert` call whose own batch repeats an id fails with
`DuplicateIDError` and writes nothing (the engine state is untouched);
`add(ids=["a","a"], embeddings=[[0.0],[1.1]])` is such a batch. -/
theorem dup_batch_rejected (s : Engine) (batch : List AddEntry)
    (hdup : ¬(batch.map (fun e => e.id)).Nodup) :
    addRecords s batch = .error .duplicateIDError ∧
    upsertRecords s batch = .error .duplicateIDError ∧
    applyOp s (.add batch) = s ∧
    applyOp s (.upsert batch) = s ∧
    ¬(([entryA, entryA2].map (fun e => e.id)).Nodup) := by
  have h1 : addRecords s batch = .error .duplicateIDError := by
    unfold addRecords
    rw [if_neg hdup]
  have h2 : upsertRecords s batch = .error .duplicateIDError := by
    unfold upsertRecords
    rw [if_neg hdup]
  refine ⟨h1, h2, ?_, ?_, by decide⟩
  · simp only [applyOp]
    rw [h1]
  · simp only [applyOp]
    rw [h2]

/-- C4 witness: the concrete duplicate batch `["a", "a"]` is rejected by
both `add` and `upsert`. -/
theorem dup_batch_rejected_witness :
    addRecords (initEngine 100 1000) [entryA, entryA2] =
      .error .duplicateIDError ∧
    upsertRecords (initEngine 100 1000) [entryA, entryA2] =
      .error .duplicateIDError :=
  ⟨(dup_batch_rejected (initEngine 100 1000) [entryA, entryA2] (by decide)).1,
   (dup_batch_rejected (initEngine 100 1000) [entryA, entryA2] (by decide)).2.1⟩

/-- C5: after replaying any sequence of add/update/upsert/delete
operations, no two live records share an id, the engine's id list equals
the id list the external reference model (the test's
`record_set_state["ids"]` mirror) tracks, and `count()` equals the number
of distinct live ids of that reference model. -/
theorem count_matches_reference (b sync : ℕ) (ops : List Op) :
    ((replay (initEngine b sync) ops).records.map (fun r => r.id)).Nodup ∧
    (replay (initEngine b sync) ops).records.map (fun r => r.id) =
      refReplay [] ops ∧
    countRecords (replay (initEngine b sync) ops) =
      (refReplay [] ops).dedup.length := by
  have hids := ids_replay ops (initEngine b sync) [] rfl
  have hinv := engineInv_replay (initEngine b sync) ops (engineInv_init b sync)
  refine ⟨hinv.1, hids, ?_⟩
  have hnd : (refReplay [] ops).Nodup := nodup_refReplay ops [] List.nodup_nil
  rw [hnd.dedup]
  unfold countRecords
  calc (replay (initEngine b sync) ops).records.length
      = ((replay (initEngine b sync) ops).records.map (fun r => r.id)).length :=
        (List.length_map _ _).symm
    _ = (refReplay [] ops).length := by rw [hids]

/-- A record built from an (id, embedding) pair. -/
def recOf (p : String × List ℚ) : Record := ⟨p.1, p.2, none, none⟩

/-- An add entry built from an (id, embedding) pair. -/
def entryOf (p : String × List ℚ) : AddEntry := ⟨p.1, p.2, none, none⟩

/-- The operation sequence of `test_get_vector`: add every item, delete
the first id, immediately re-add it with a fresh embedding. -/
def deleteReaddOps (items : List (String × List ℚ)) (i0 : String)
    (newEmb : List ℚ) : List Op :=
  [.add (items.map entryOf), .delete [i0], .add [⟨i0, newEmb, none, none⟩]]

theorem applyOp_add_eq (s : Engine) (batch : List AddEntry)
    (hnd : (batch.map (fun e => e.id)).Nodup) :
    applyOp s (.add batch) = addList s batch := by
  simp only [applyOp, addRecords]
  rw [if_pos hnd]

theorem applyOp_delete_eq (s : Engine) (dids : List String)
    (hne : dids.isEmpty = false) :
    applyOp s (.delete dids) = pushDeltas
      { s with records := s.records.filter
                  (fun r => !(matchSelector (some dids) none none r)) }
      (((s.records.filter (matchSelector (some dids) none none)).map
        (fun r => r.id)).map .removeVec) := by
  have hres : deleteRecords s (some dids) none none = .ok (pushDeltas
      { s with records := s.records.filter
                  (fun r => !(matchSelector (some dids) none none r)) }
      (((s.records.filter (matchSelector (some dids) none none)).map
        (fun r => r.id)).map .removeVec)) := by
    unfold deleteRecords
    rw [if_neg (by rw [selectorEmpty_ids_only, hne]; exact Bool.false_ne_true)]
  simp only [applyOp]
  rw [hres]

/-- C6: for a collection with `batch_size = b ≥ 3` and
`sync_threshold ≥ b`, adding at least `b + 1` records with distinct ids,
deleting the first id and re-adding it before the pending batch has
flushed, the vector read path of `get(include=["embeddings"])` answers for
every live id (no out-of-range or none-dereference failure) with exactly
the Record Store's embeddings; the re-added id resolves to its latest
embedding, and the count is back to the number of items. -/
theorem delete_readd_get_resolves (b sync : ℕ) (i0 : String)
    (e0 newEmb : List ℚ) (rest : List (String × List ℚ))
    (hb : 3 ≤ b) (hbs : b ≤ sync)
    (hcount : b + 1 ≤ ((i0, e0) :: rest).length)
    (hnd : (((i0, e0) :: rest).map (fun p => p.1)).Nodup) :
    getEmbeddings (replay (initEngine b sync)
        (deleteReaddOps ((i0, e0) :: rest) i0 newEmb)) =
      some ((replay (initEngine b sync)
        (deleteReaddOps ((i0, e0) :: rest) i0 newEmb)).records.map
          (fun r => r.embedding)) ∧
    storeEmb (replay (initEngine b sync)
        (deleteReaddOps ((i0, e0) :: rest) i0 newEmb)).records i0 =
      some newEmb ∧
    countRecords (replay (initEngine b sync)
        (deleteReaddOps ((i0, e0) :: rest) i0 newEmb)) = rest.length + 1 := by
  have hrestne : ∀ p ∈ rest, ¬(p.1 = i0) := by
    intro p hp hc
    simp only [List.map_cons, List.nodup_cons] at hnd
    exact hnd.1 (hc ▸ List.mem_map_of_mem _ hp)
  have hnd1 : ((((i0, e0) :: rest).map entryOf).map (fun e => e.id)).Nodup := by
    rw [List.map_map]
    have hc : ((fun e : AddEntry => e.id) ∘ entryOf) =
        fun p : String × List ℚ => p.1 := rfl
    rw [hc]
    exact hnd
  -- the records after the initial bulk add
  have h1 : (applyOp (initEngine b sync)
      (Op.add (((i0, e0) :: rest).map entryOf))).records =
      ((i0, e0) :: rest).map recOf := by
    rw [applyOp_add_eq _ _ hnd1, addList_records _ _ hnd1]
    have hall : ∀ e ∈ ((i0, e0) :: rest).map entryOf,
        (!(hasId (initEngine b sync).records e.id)) = true := fun e _ => rfl
    rw [List.filter_eq_self.mpr hall, List.map_map]
    rfl
  -- the records after deleting the first id
  have h2 : (applyOp (applyOp (initEngine b sync)
      (Op.add (((i0, e0) :: rest).map entryOf))) (Op.delete [i0])).records =
      rest.map recOf := by
    rw [applyOp_delete_eq _ [i0] rfl, records_pushDeltas, h1, List.map_cons,
      List.filter_cons, if_neg (by simp [matchSelector_ids_only, recOf])]
    apply List.filter_eq_self.mpr
    intro r hr
    obtain ⟨p, hp, hpr⟩ := List.mem_map.mp hr
    rw [matchSelector_ids_only]
    have hpid : r.id = p.1 := by rw [← hpr]; rfl
    simp [hpid, hrestne p hp]
  -- the records after the re-add
  have hfresh : hasId (rest.map recOf) i0 = false := by
    rw [Bool.eq_false_iff]
    intro hc
    obtain ⟨r, hr, hri⟩ := List.any_eq_true.mp hc
    obtain ⟨p, hp, hpr⟩ := List.mem_map.mp hr
    have hpid : r.id = p.1 := by rw [← hpr]; rfl
    exact hrestne p hp (by rw [← hpid]; simpa using hri)
  have h3 : (replay (initEngine b sync)
      (deleteReaddOps ((i0, e0) :: rest) i0 newEmb)).records =
      rest.map recOf ++ [(⟨i0, newEmb, none, none⟩ : Record)] := by
    have hchain : replay (initEngine b sync)
        (deleteReaddOps ((i0, e0) :: rest) i0 newEmb) =
        applyOp (applyOp (applyOp (initEngine b sync)
          (Op.add (((i0, e0) :: rest).map entryOf))) (Op.delete [i0]))
          (Op.add [⟨i0, newEmb, none, none⟩]) := rfl
    rw [hchain, applyOp_add_eq _ _ (by simp)]
    show (addOne _ _).records = _
    unfold addOne
    rw [if_neg (by rw [h2, hfresh]; exact Bool.false_ne_true),
      records_pushDeltas, h2]
    rfl
  refine ⟨?_, ?_, ?_⟩
  · exact getEmbeddings_of_inv _
      (engineInv_replay (initEngine b sync) _ (engineInv_init b sync))
  · rw [h3, storeEmb_append_single _ _ _ hfresh, if_pos (by simp)]
  · unfold countRecords
    rw [h3]
    simp

/-- C6 witness: a concrete run with batch size 3 and four items. -/
theorem delete_readd_get_resolves_witness :
    storeEmb (replay (initEngine 3 3)
        (deleteReaddOps ((idA, ([0] : List ℚ)) ::
          [(idB, [0]), (idC, [0]), (idD, [0])]) idA [1, 1])).records idA =
      some [1, 1] :=
  (delete_readd_get_resolves 3 3 idA [0] [1, 1]
    [(idB, [0]), (idC, [0]), (idD, [0])]
    (by decide) (by decide) (by decide) (by decide)).2.1

/-- C7: a query against a collection holding zero records does not fail:
the ids field and every requested include field hold one empty sequence
per query vector. -/
theorem query_empty_collection (s : Engine) (qs : List (List ℚ)) (n : ℕ)
    (incl : List IncludeField) (hempty : s.records = []) :
    (queryCollection s qs n incl).ids = qs.map (fun _ => []) ∧
    (incl.contains .embeddings = true →
      (queryCollection s qs n incl).embeddings = some (qs.map (fun _ => []))) ∧
    (incl.contains .metadatas = true →
      (queryCollection s qs n incl).metadatas = some (qs.map (fun _ => []))) ∧
    (incl.contains .documents = true →
      (queryCollection s qs n incl).documents = some (qs.map (fun _ => []))) ∧
    (incl.contains .distances = true →
      (queryCollection s qs n incl).distances = some (qs.map (fun _ => []))) := by
  have hkeys : ∀ q, annSearchKeys s.records q n = [] := by
    intro q
    rw [hempty]
    simp [annSearchKeys, distKeys]
  refine ⟨?_, ?_, ?_, ?_, ?_⟩
  · simp [queryCollection, hkeys]
  all_goals intro hc
  all_goals have hm := by simpa using hc
  all_goals simp [queryCollection, hkeys, hm]

/-- C7 witness: one query vector against a fresh empty collection. -/
theorem query_empty_collection_witness :
    (queryCollection (initEngine 1 1) [[0]] 5 [IncludeField.embeddings]).embeddings =
      some [[]] :=
  (query_empty_collection (initEngine 1 1) [[0]] 5 [.embeddings] rfl).2.1 (by decide)

/-- C8: for every collection state and query workload, the i-th ranked id
list returned by `query(..., n_results=n)` has recall at least 0.95
against the true n-nearest-neighbor set computed by exhaustive distance
comparison (the model's exact search attains recall 1). -/
theorem query_recall_bound (s : Engine) (qs : List (List ℚ)) (n : ℕ)
    (incl : List IncludeField) (i : ℕ) (hi : i < qs.length) :
    (95 : ℚ) / 100 ≤ recallAt ((queryCollection s qs n incl).ids.getD i [])
      (trueNearestIds s.records (qs.getD i []) n) := by
  have hids : (queryCollection s qs n incl).ids =
      (qs.map (fun q => annSearchKeys s.records q n)).map
        (fun ks => ks.map (fun p => idAt s.records p.2)) := rfl
  have hsome : qs[i]? = some qs[i] := List.getElem?_eq_getElem hi
  have hgetD1 : (queryCollection s qs n incl).ids.getD i [] =
      (annSearchKeys s.records qs[i] n).map (fun p => idAt s.records p.2) := by
    rw [hids, List.map_map]
    simp [List.getD, hsome]
  have hgetD2 : qs.getD i [] = qs[i] := by
    simp [List.getD, hsome]
  rw [hgetD1, hgetD2]
  have heq : (annSearchKeys s.records qs[i] n).map
      (fun p => idAt s.records p.2) =
      trueNearestIds s.records qs[i] n := by
    rw [annSearchKeys_eq_exhaustive]
    rfl
  rw [heq, recallAt_self]
  norm_num

/-- C8 witness: recall of a single-vector query on a fresh collection. -/
theorem query_recall_bound_witness :
    (95 : ℚ) / 100 ≤ recallAt
      ((queryCollection (initEngine 1 1) [[0]] 5 []).ids.getD 0 [])
      (trueNearestIds (initEngine 1 1).records (([[0]] : List (List ℚ)).getD 0 []) 5) :=
  query_recall_bound (initEngine 1 1) [[0]] 5 [] 0 (by decide)

end Chroma


namespace ChromaServer

/-- C9, code bug: each collection-operation handler authenticates and
authorizes before invoking the engine, but `FastAPI.get_nearest_neighbors`
passes `AuthzAction.RESET` instead of the query-specific action (source
line 968), so a caller whose role authorizes exactly the query operation
is rejected with a forbidden signal and never reaches the engine, while a
caller holding only the reset permission queries successfully; every other
collection endpoint checks its operation-specific action, and an
unauthenticated request never reaches the engine on any endpoint. -/
theorem query_endpoint_authorizes_reset :
    endpointAuthzAction .query = .reset ∧
    endpointAuthzAction .query ≠ operationAction .query ∧
    runCollectionEndpoint ⟨true, true, fun a => a == .query⟩ .query = .forbidden ∧
    runCollectionEndpoint ⟨true, true, fun a => a == .reset⟩ .query = .engineInvoked ∧
    (∀ ep : CollectionEndpoint, ep ≠ .query →
      endpointAuthzAction ep = operationAction ep) ∧
    (∀ ep : CollectionEndpoint,
      runCollectionEndpoint ⟨true, false, fun _ => true⟩ ep = .unauthorized) := by
  refine ⟨rfl, by decide, rfl, rfl, ?_, ?_⟩
  · intro ep hep
    cases ep <;> first | rfl | exact absurd rfl hep
  · intro ep
    cases ep <;> rfl

/-- A concrete path for the routing witness. -/
def apiPath : String := "/api/v1/collections"

/-- C10: `ChromaAPIRouter.add_api_route` registers both the given path and
its trailing-slash toggle, dispatching to the same endpoint; a route whose
path ends in a slash is never included in the schema (so at most the
non-trailing-slash variant is), and when the caller passed
`include_in_schema=False` neither variant is included. -/
theorem add_api_route_slash_pair (routes : List RouteEntry) (path : String)
    (ep : ℕ) (kw : Option Bool) :
    ∃ r1 r2 : RouteEntry,
      addApiRoute routes path ep kw = routes ++ [r1, r2] ∧
      r1.endpointId = ep ∧ r2.endpointId = ep ∧
      r1.path = path ∧ r2.path = toggleSlash path ∧
      (∀ r : RouteEntry, (r = r1 ∨ r = r2) → r.includeInSchema = true →
        (r.path.endsWith slashStr = false ∧ kw ≠ some false)) ∧
      (kw = some false → r1.includeInSchema = false ∧ r2.includeInSchema = false) := by
  refine ⟨⟨path, ep, (!(kw == some false) && !(path.endsWith slashStr))⟩,
    ⟨toggleSlash path, ep,
      (!(kw == some false) && !((toggleSlash path).endsWith slashStr))⟩,
    rfl, rfl, rfl, rfl, rfl, ?_, ?_⟩
  · intro r hr hincl
    rcases hr with h | h <;> subst h
    · obtain ⟨h1, h2⟩ := Bool.and_eq_true_iff.mp hincl
      refine ⟨by simpa using h2, ?_⟩
      intro hc
      rw [hc] at h1
      simp at h1
    · obtain ⟨h1, h2⟩ := Bool.and_eq_true_iff.mp hincl
      refine ⟨by simpa using h2, ?_⟩
      intro hc
      rw [hc] at h1
      simp at h1
  · intro hkw
    rw [hkw]
    constructor <;> simp

/-- C10 witness: registering a concrete collections path adds exactly the
slash/non-slash pair. -/
theorem add_api_route_slash_pair_witness :
    (addApiRoute [] apiPath 0 none).length = 2 := by
  obtain ⟨r1, r2, heq, -, -, -, -, -, -⟩ := add_api_route_slash_pair [] apiPath 0 none
  rw [heq]
  rfl

end ChromaServer
